import Mathlib

/-!
Verification development for the `stcal` ramp-fitting core (`ols_cas22`).

The repository snapshot contains only the build configuration (`setup.py`);
the three Cython extension modules it names (`_ramp`, `_jump`, `_fit`) are
not part of the snapshot.  The pipeline itself is therefore modelled from
the specification, with exact rational arithmetic (`ℚ`) in place of
floating point: variances and the jump statistic are kept in squared
units so that no square root is needed, and "within floating-point
tolerance" becomes exact equality.  Invalid values use an explicit
validity flag instead of a NaN sentinel, as the spec's design notes ask.
-/

set_option allowUnsafeReducibility true in
attribute [semireducible] Rat.add Rat.mul Rat.inv Rat.sub

namespace Stcal

/-- Modelled from the spec: one (possibly averaged) sample point of a ramp
(`Resultant`, §3): mean counts, mean time, number of contributing reads,
and a validity flag (invalid resultants are placeholders kept for stable
indexing).  The concrete resultant type lives in the missing `_ramp`
extension module. -/
structure Resultant where
  counts : ℚ
  time : ℚ
  nreads : ℕ
  valid : Bool
deriving DecidableEq, Repr

/-- Modelled from the spec: the per-pixel configuration (§6): read noise,
the numeric floor epsilon (§4.3), and the two threshold parameters of the
jump detector (§4.2).  The threshold is kept in squared (variance) units:
`thresholdAt` is compared against the squared normalized statistic. -/
structure Config where
  readNoise : ℚ
  eps : ℚ
  thrA : ℚ
  thrB : ℚ
deriving DecidableEq, Repr

/-- Modelled from the spec: per-segment scalar slope estimate, its
variance, and a validity flag (§3, `SegmentFit`); produced by the missing
`_fit` module. -/
structure SegmentFit where
  slope : ℚ
  variance : ℚ
  valid : Bool
deriving DecidableEq, Repr

/-- Modelled from the spec: the terminal per-pixel output (§3,
`PixelResult`): combined slope, combined variance, validity, the jump
mask (one flag per resultant index), and the quality bitmask. -/
structure PixelResult where
  slope : ℚ
  variance : ℚ
  valid : Bool
  jumpMask : List Bool
  quality : ℕ
deriving DecidableEq, Repr

/-- Modelled from the spec: quality bit for a fully saturated pixel (§6). -/
def qSaturated : ℕ := 1

/-- Modelled from the spec: quality bit for a too-short ramp
(`InsufficientData`, §7). -/
def qInsufficient : ℕ := 2

/-- Modelled from the spec: quality bit for "no segment yields a valid
fit" (§4.4). -/
def qAllInvalid : ℕ := 4

/-- Modelled from the spec: the numeric floor of §4.3/§7 (`NumericFloor`):
a computed variance is floored at a small positive epsilon, so a
non-positive value never reaches a division. -/
def floorEps (cfg : Config) (v : ℚ) : ℚ := max cfg.eps v

/-- Modelled from the spec: weighted regression sums.  `wsumDen l t0` is
`Σ w · (t - t0)^2` over triples `(w, t, y)`. -/
def wsumDen (l : List (ℚ × ℚ × ℚ)) (t0 : ℚ) : ℚ :=
  (l.map (fun p => p.1 * (p.2.1 - t0) ^ 2)).sum

/-- Modelled from the spec: weighted regression sums.  `wsumNum l t0 y0`
is `Σ w · (t - t0) · (y - y0)` over triples `(w, t, y)`. -/
def wsumNum (l : List (ℚ × ℚ × ℚ)) (t0 y0 : ℚ) : ℚ :=
  (l.map (fun p => p.1 * (p.2.1 - t0) * (p.2.2 - y0))).sum

/-- Modelled from the spec: the provisional (unweighted, rate-only,
zero-point fixed at the first sample) slope of §4.2/§4.3, used both by
the jump detector and as the weight seed of the segment fitter. -/
def provisionalSlope (pts : List (ℚ × ℚ)) : ℚ :=
  match pts with
  | [] => 0
  | p :: _ =>
    let tri := pts.map (fun q => ((1 : ℚ), q.1, q.2))
    wsumNum tri p.1 p.2 / wsumDen tri p.1

/-- Modelled from the spec: the valid resultants of a pixel's ramp,
paired with their (dense, stable) original indices (§3, §4.1). -/
def validIndexed (ramp : List Resultant) : List (ℕ × Resultant) :=
  ramp.enum.filter (fun p => p.2.valid)

/-- Modelled from the spec: the jump detector's threshold (§4.2), a
two-parameter function of the estimated count rate, in squared units. -/
def thresholdAt (cfg : Config) (rate : ℚ) : ℚ := cfg.thrA + cfg.thrB * rate

/-- Modelled from the spec: the squared normalized difference statistic
of §4.2 between two temporally adjacent valid resultants: the excess of
the count difference over the provisional slope times the time step,
squared and divided by the propagated variance (read noise of both
resultants plus Poisson noise at the provisional slope), floored. -/
def boundaryStat (cfg : Config) (slope : ℚ) (p q : Resultant) : ℚ :=
  let dt := q.time - p.time
  let ex := q.counts - p.counts - slope * dt
  ex ^ 2 /
    floorEps cfg
      (cfg.readNoise ^ 2 * (1 / (p.nreads : ℚ) + 1 / (q.nreads : ℚ)) + slope * dt)

/-- Modelled from the spec: the strict threshold comparison of §4.2 —
a boundary is flagged exactly when its statistic strictly exceeds the
threshold; ties are not jumps. -/
def jumpDecision (cfg : Config) (slope : ℚ) (p q : Resultant) : Bool :=
  thresholdAt cfg slope < boundaryStat cfg slope p q

/-- Modelled from the spec: the (time, counts) points of the valid
resultants that are not flagged in the current mask, used to recompute
the provisional slope between scans (§4.2). -/
def unflaggedPts (ramp : List Resultant) (mask : List Bool) : List (ℚ × ℚ) :=
  ((validIndexed ramp).filter (fun p => !(mask.getD p.1 false))).map
    (fun p => (p.2.time, p.2.counts))

/-- Modelled from the spec: the indices newly flagged by one scan of the
jump detector (§4.2): adjacent valid resultants are compared and the
later index of a boundary whose statistic strictly exceeds the threshold
is flagged as the start of the discontinuity. -/
def flaggedNew (cfg : Config) (ramp : List Resultant) (mask : List Bool) : List ℕ :=
  let slope := provisionalSlope (unflaggedPts ramp mask)
  let vi := validIndexed ramp
  (vi.zip vi.tail).filterMap
    (fun pq => if jumpDecision cfg slope pq.1.2 pq.2.2 then some pq.2.1 else none)

/-- Modelled from the spec: one fixed-point step of the jump detector
(§4.2): recompute the provisional slope excluding flagged points,
re-scan, and add the new flags to the mask. -/
def scanStep (cfg : Config) (ramp : List Resultant) (mask : List Bool) : List Bool :=
  (List.range ramp.length).map
    (fun i => mask.getD i false || (flaggedNew cfg ramp mask).contains i)

/-- Modelled from the spec: the all-false initial jump mask. -/
def initMask (ramp : List Resultant) : List Bool :=
  List.replicate ramp.length false

/-- Modelled from the spec: the bounded fixed-point iteration of §4.2:
stop as soon as a scan produces no new flags, or when the fuel (the
iteration cap) runs out, in which case the last computed mask stands. -/
def jumpIterate (cfg : Config) (ramp : List Resultant) :
    ℕ → List Bool → List Bool
  | 0, mask => mask
  | n + 1, mask =>
    let mask' := scanStep cfg ramp mask
    if mask' = mask then mask else jumpIterate cfg ramp n mask'

/-- Modelled from the spec: the jump detector (§4.2), implemented in the
missing `_jump` module: iterate the scan to a fixed point, capped at the
ramp length. -/
def detectJumps (cfg : Config) (ramp : List Resultant) : List Bool :=
  jumpIterate cfg ramp ramp.length (initMask ramp)

/-- Modelled from the spec: split the valid resultants into contiguous
segments, starting a new segment at every flagged index (§4.2);
a flag at the very first valid resultant cannot create an empty leading
segment, so flags never reduce the segment count below 1. -/
def segAux (flag : ℕ → Bool) :
    List (ℕ × Resultant) → List Resultant → List (List Resultant)
  | [], acc => if acc.isEmpty then [] else [acc.reverse]
  | p :: rest, acc =>
    if flag p.1 && !acc.isEmpty then acc.reverse :: segAux flag rest [p.2]
    else segAux flag rest (p.2 :: acc)

/-- Modelled from the spec: the ordered list of segments implied by a
jump mask (§4.2). -/
def segmentsOf (ramp : List Resultant) (mask : List Bool) : List (List Resultant) :=
  segAux (fun i => mask.getD i false) (validIndexed ramp) []

/-- Modelled from the spec: each resultant of a segment paired with the
time of the previous resultant (the first is paired with its own time,
so its Poisson term vanishes), for the per-resultant noise model of
§4.3. -/
def prevTimesAux (t : ℚ) : List Resultant → List ℚ
  | [] => []
  | r :: rest => t :: prevTimesAux r.time rest

/-- Modelled from the spec: the list of previous-resultant times for a
segment (§4.3). -/
def prevTimes : List Resultant → List ℚ
  | [] => []
  | r :: rest => prevTimesAux r.time (r :: rest)

/-- Modelled from the spec: the total noise variance of a resultant at a
provisional slope (§4.3): the read-noise term scaled by the number of
averaged reads plus a Poisson term proportional to the slope times the
elapsed time since the previous resultant. -/
def resVarRaw (cfg : Config) (slope : ℚ) (prevTime : ℚ) (r : Resultant) : ℚ :=
  cfg.readNoise ^ 2 / (r.nreads : ℚ) + slope * (r.time - prevTime)

/-- Modelled from the spec: the weighted points of a segment for the
single-pass weighted least squares of §4.3: each resultant weighted by
the inverse of its floored total variance at the provisional slope. -/
def segTriples (cfg : Config) (slope : ℚ) (seg : List Resultant) :
    List (ℚ × ℚ × ℚ) :=
  (seg.zip (prevTimes seg)).map
    (fun p => (1 / floorEps cfg (resVarRaw cfg slope p.2 p.1), p.1.time, p.1.counts))

/-- Modelled from the spec: an invalid segment fit (no estimate). -/
def SegmentFit.invalid : SegmentFit := ⟨0, 0, false⟩

/-- Modelled from the spec: the segment fitter of §4.3 (the missing
`_fit` module): segments with fewer than 2 resultants yield no fit; the
provisional slope is the unweighted rate-only slope; weights come from
the floored per-resultant variances; a degenerate segment (non-positive
weighted denominator, i.e. all resultants share one time) yields an
invalid fit instead of a division. -/
def fitSegment (cfg : Config) (seg : List Resultant) : SegmentFit :=
  match seg with
  | a :: b :: rest =>
    let s := a :: b :: rest
    let slope0 := provisionalSlope (s.map (fun r => (r.time, r.counts)))
    let tri := segTriples cfg slope0 s
    let den := wsumDen tri a.time
    if den ≤ 0 then SegmentFit.invalid
    else ⟨wsumNum tri a.time a.counts / den, 1 / den, true⟩
  | _ => SegmentFit.invalid

/-- Modelled from the spec: the ramp combiner of §4.4: pure
inverse-variance aggregation of the valid segment fits; the jump mask is
copied verbatim; if no segment fit is valid the pixel is invalid with
the all-segments-invalid quality bit. -/
def combineFits (fits : List SegmentFit) (mask : List Bool) : PixelResult :=
  let vs := fits.filter (fun f => f.valid)
  if vs.isEmpty then ⟨0, 0, false, mask, qAllInvalid⟩
  else
    let wsum := (vs.map (fun f => 1 / f.variance)).sum
    let ssum := (vs.map (fun f => f.slope / f.variance)).sum
    ⟨ssum / wsum, 1 / wsum, true, mask, 0⟩

/-- Modelled from the spec: the per-pixel pipeline (§2, §4): a ramp with
fewer than 2 valid resultants is marked invalid with the
`InsufficientData` bit and an unflagged mask, no fit attempted (§7);
otherwise detect jumps, fit each segment, and combine. -/
def fitPixel (cfg : Config) (ramp : List Resultant) : PixelResult :=
  let vi := validIndexed ramp
  if vi.length < 2 then
    { slope := 0, variance := 0, valid := false,
      jumpMask := initMask ramp,
      quality := qInsufficient + (if vi.length = 0 then qSaturated else 0) }
  else
    let mask := detectJumps cfg ramp
    combineFits ((segmentsOf ramp mask).map (fitSegment cfg)) mask

/-- Modelled from the spec: the array-wide computation (§5): a
data-parallel map of the per-pixel pipeline over the pixels. -/
def fitArray (cfg : Config) (pixels : List (List Resultant)) : List PixelResult :=
  pixels.map (fitPixel cfg)

/-- Modelled from the spec: the same configuration with the read noise
replaced, every other field unchanged (used to compare runs that differ
only in read noise). -/
def withNoise (cfg : Config) (rn : ℚ) : Config :=
  ⟨rn, cfg.eps, cfg.thrA, cfg.thrB⟩

/-! Concrete inputs used to exercise the model on closed instances. -/

/-- A valid single-read resultant with the given counts and time. -/
def mkRes (c t : ℚ) : Resultant := ⟨c, t, 1, true⟩

/-- An invalid (saturated) resultant placeholder. -/
def mkBad (c t : ℚ) : Resultant := ⟨c, t, 1, false⟩

/-- A 4-resultant ramp with a moderate discontinuity between indices 1
and 2 (counts 0, 1, 16, 17 at times 0, 1, 2, 3). -/
def rampCE : List Resultant :=
  [mkRes 0 0, mkRes 1 1, mkRes 16 2, mkRes 17 3]

/-- Configuration with read noise 1 (eps 1/100, constant squared
threshold 8). -/
def cfgLo : Config := ⟨1, 1/100, 8, 0⟩

/-- The same configuration as `cfgLo` with the read noise raised to 2. -/
def cfgHi : Config := ⟨2, 1/100, 8, 0⟩

/-- A clean linear ramp with rate 3 and intercept 2. -/
def rampLin : List Resultant :=
  [mkRes 2 0, mkRes 5 1, mkRes 8 2, mkRes 11 3]

/-- A noiseless configuration (read noise 0). -/
def cfgZero : Config := ⟨0, 1/100, 8, 0⟩

/-- Configuration whose constant squared threshold 1/2 is hit exactly by
the boundary `(0,0) → (1,1)` at slope 0: a tie case. -/
def cfgTie : Config := ⟨1, 1/100, 1/2, 0⟩

/-- A ramp with exactly one valid resultant. -/
def rampOne : List Resultant := [mkBad 5 0, mkRes 7 1, mkBad 9 2]

/-- A degenerate two-resultant segment whose times coincide. -/
def segDegen : List Resultant := [mkRes 1 4, mkRes 9 4]

/-- Two concrete valid segment fits. -/
def fitP : SegmentFit := ⟨3, 1/2, true⟩

/-- A second concrete valid segment fit. -/
def fitQ : SegmentFit := ⟨5, 1/4, true⟩

/-- A two-pixel input array. -/
def pixelsP : List (List Resultant) := [[mkRes 0 0, mkRes 2 1], [mkRes 1 1]]

/-- The same two-pixel array with pixel 1's data changed. -/
def pixelsQ : List (List Resultant) := [[mkRes 0 0, mkRes 2 1], [mkRes 9 1]]

/-! The build configuration, embedded from `src/setup.py` (the one source
file present in the snapshot). -/

/-- One `setuptools.Extension` entry of `src/setup.py`: dotted module
name, list of source files, and target language. -/
structure PyExtension where
  name : String
  sources : List String
  language : String
deriving DecidableEq, Repr

/-- The `extensions` list of `src/setup.py`, verbatim: three Cython
extension modules, each compiled as C++ from one `.pyx` source. -/
def extensions : List PyExtension :=
  [⟨"stcal.ramp_fitting.ols_cas22._ramp",
      ["src/stcal/ramp_fitting/ols_cas22/_ramp.pyx"], "c++"⟩,
    ⟨"stcal.ramp_fitting.ols_cas22._jump",
      ["src/stcal/ramp_fitting/ols_cas22/_jump.pyx"], "c++"⟩,
    ⟨"stcal.ramp_fitting.ols_cas22._fit",
      ["src/stcal/ramp_fitting/ols_cas22/_fit.pyx"], "c++"⟩]

/-- Replace every dot of a string by a slash (character by character). -/
def dotsToSlashes (s : String) : String :=
  String.mk (s.data.map (fun c => if c = '.' then '/' else c))

/-- The source path that mirrors a dotted module name under `src/`. -/
def moduleSourcePath (name : String) : String :=
  "src/" ++ dotsToSlashes name ++ ".pyx"

/-! Helper lemmas about the weighted regression sums. -/

theorem wsumDen_cons (p : ℚ × ℚ × ℚ) (l : List (ℚ × ℚ × ℚ)) (t0 : ℚ) :
    wsumDen (p :: l) t0 = p.1 * (p.2.1 - t0) ^ 2 + wsumDen l t0 := by
  simp [wsumDen]

theorem wsumNum_cons (p : ℚ × ℚ × ℚ) (l : List (ℚ × ℚ × ℚ)) (t0 y0 : ℚ) :
    wsumNum (p :: l) t0 y0 =
      p.1 * (p.2.1 - t0) * (p.2.2 - y0) + wsumNum l t0 y0 := by
  simp [wsumNum]

theorem wsumDen_nonneg (l : List (ℚ × ℚ × ℚ)) (t0 : ℚ)
    (h : ∀ p ∈ l, 0 ≤ p.1) : 0 ≤ wsumDen l t0 := by
  induction l with
  | nil => simp [wsumDen]
  | cons p rest ih =>
    rw [wsumDen_cons]
    have h1 : 0 ≤ p.1 := h p (List.mem_cons_self _ _)
    have h2 : 0 ≤ wsumDen rest t0 := ih (fun q hq => h q (List.mem_cons_of_mem _ hq))
    have h3 : 0 ≤ p.1 * (p.2.1 - t0) ^ 2 := mul_nonneg h1 (sq_nonneg _)
    linarith

theorem wsumNum_linear (l : List (ℚ × ℚ × ℚ)) (t0 c0 r : ℚ)
    (h : ∀ p ∈ l, p.2.2 = c0 + r * p.2.1) :
    wsumNum l t0 (c0 + r * t0) = r * wsumDen l t0 := by
  induction l with
  | nil => simp [wsumNum, wsumDen]
  | cons p rest ih =>
    rw [wsumNum_cons, wsumDen_cons]
    have h1 : p.2.2 = c0 + r * p.2.1 := h p (List.mem_cons_self _ _)
    have h2 := ih (fun q hq => h q (List.mem_cons_of_mem _ hq))
    rw [h1, h2]
    ring

theorem wsumDen_pos_iff (l : List (ℚ × ℚ × ℚ)) (t0 : ℚ)
    (h : ∀ p ∈ l, 0 < p.1) :
    0 < wsumDen l t0 ↔ ∃ p ∈ l, p.2.1 ≠ t0 := by
  induction l with
  | nil => simp [wsumDen]
  | cons p rest ih =>
    rw [wsumDen_cons]
    have hw : 0 < p.1 := h p (List.mem_cons_self _ _)
    have hrest : ∀ q ∈ rest, 0 < q.1 := fun q hq => h q (List.mem_cons_of_mem _ hq)
    have hnn : 0 ≤ wsumDen rest t0 := wsumDen_nonneg rest t0 (fun q hq => (hrest q hq).le)
    have hhd : 0 ≤ p.1 * (p.2.1 - t0) ^ 2 := mul_nonneg hw.le (sq_nonneg _)
    constructor
    · intro hpos
      by_cases hp : p.2.1 = t0
      · have : p.1 * (p.2.1 - t0) ^ 2 = 0 := by rw [hp]; ring
        rw [this, zero_add] at hpos
        obtain ⟨q, hq, hq2⟩ := (ih hrest).1 hpos
        exact ⟨q, List.mem_cons_of_mem _ hq, hq2⟩
      · exact ⟨p, List.mem_cons_self _ _, hp⟩
    · rintro ⟨q, hq, hq2⟩
      rcases List.mem_cons.1 hq with rfl | hq'
      · have hd : 0 < (q.2.1 - t0) ^ 2 := pow_two_pos_of_ne_zero (sub_ne_zero.mpr hq2)
        nlinarith
      · have : 0 < wsumDen rest t0 := (ih hrest).2 ⟨q, hq', hq2⟩
        linarith

/-! Helper lemmas about the valid-resultant view, the initial mask, the
provisional slope, and segmentation. -/

theorem mem_enum_snd {α : Type} (l : List α) (p : ℕ × α) (hp : p ∈ l.enum) :
    p.2 ∈ l := by
  have := List.mem_map_of_mem Prod.snd hp
  rwa [List.enum_map_snd] at this

theorem validIndexed_all (ramp : List Resultant)
    (h : ∀ r ∈ ramp, r.valid = true) : validIndexed ramp = ramp.enum := by
  unfold validIndexed
  rw [List.filter_eq_self]
  intro p hp
  simpa using h p.2 (mem_enum_snd ramp p hp)

theorem mem_validIndexed_snd (ramp : List Resultant) (p : ℕ × Resultant)
    (hp : p ∈ validIndexed ramp) : p.2 ∈ ramp := by
  unfold validIndexed at hp
  exact mem_enum_snd ramp p (List.mem_filter.1 hp).1

theorem getElem?_initMask (ramp : List Resultant) (i : ℕ) :
    ((initMask ramp)[i]?).getD false = false := by
  rw [initMask, List.getElem?_replicate]
  by_cases h : i < ramp.length <;> simp [h]

theorem getD_initMask (ramp : List Resultant) (i : ℕ) :
    (initMask ramp).getD i false = false := by
  rw [List.getD_eq_getElem?_getD]
  exact getElem?_initMask ramp i

theorem unflaggedPts_init (ramp : List Resultant)
    (h : ∀ r ∈ ramp, r.valid = true) :
    unflaggedPts ramp (initMask ramp) = ramp.map (fun r => (r.time, r.counts)) := by
  unfold unflaggedPts
  rw [validIndexed_all ramp h]
  have hf : (ramp.enum.filter (fun p => !((initMask ramp).getD p.1 false))) = ramp.enum := by
    rw [List.filter_eq_self]
    intro p _
    simp [getD_initMask, getElem?_initMask]
  rw [hf]
  have : (fun p : ℕ × Resultant => (p.2.time, p.2.counts)) =
      (fun r : Resultant => (r.time, r.counts)) ∘ Prod.snd := rfl
  rw [this, ← List.map_map, List.enum_map_snd]

theorem provisionalSlope_linear (c0 r : ℚ) (p q : ℚ × ℚ) (rest : List (ℚ × ℚ))
    (h : ∀ s ∈ p :: q :: rest, s.2 = c0 + r * s.1) (hpq : q.1 ≠ p.1) :
    provisionalSlope (p :: q :: rest) = r := by
  have hw : ∀ x ∈ (p :: q :: rest).map (fun s => ((1 : ℚ), s.1, s.2)), 0 < x.1 := by
    intro x hx
    obtain ⟨s, _, rfl⟩ := List.mem_map.1 hx
    norm_num
  have hden : 0 < wsumDen ((p :: q :: rest).map (fun s => ((1 : ℚ), s.1, s.2))) p.1 := by
    rw [wsumDen_pos_iff _ _ hw]
    exact ⟨((1 : ℚ), q.1, q.2), List.mem_map.2 ⟨q, by simp, rfl⟩, hpq⟩
  have hlin : ∀ x ∈ (p :: q :: rest).map (fun s => ((1 : ℚ), s.1, s.2)),
      x.2.2 = c0 + r * x.2.1 := by
    intro x hx
    obtain ⟨s, hs, rfl⟩ := List.mem_map.1 hx
    exact h s hs
  have hp2 : p.2 = c0 + r * p.1 := h p (List.mem_cons_self _ _)
  simp only [provisionalSlope]
  rw [hp2, wsumNum_linear _ _ _ _ hlin]
  exact mul_div_cancel_right₀ r (ne_of_gt hden)

theorem segAux_no_flag (flag : ℕ → Bool) (hflag : ∀ i, flag i = false) :
    ∀ (l : List (ℕ × Resultant)) (acc : List Resultant),
      segAux flag l acc =
        if (acc.reverse ++ l.map Prod.snd).isEmpty then []
        else [acc.reverse ++ l.map Prod.snd] := by
  intro l
  induction l with
  | nil =>
    intro acc
    cases acc <;> simp [segAux]
  | cons p rest ih =>
    intro acc
    rw [segAux]
    simp only [hflag, Bool.false_and]
    rw [if_neg (by simp)]
    rw [ih (p.2 :: acc)]
    simp [List.append_assoc]

theorem segmentsOf_initMask (ramp : List Resultant)
    (h : ∀ r ∈ ramp, r.valid = true) (hne : ramp ≠ []) :
    segmentsOf ramp (initMask ramp) = [ramp] := by
  unfold segmentsOf
  rw [validIndexed_all ramp h,
    segAux_no_flag _ (fun i => by simp [getD_initMask, getElem?_initMask]) _ []]
  simp [List.enum_map_snd, hne]

theorem contains_nil_eq_false (i : ℕ) : ([] : List ℕ).contains i = false := rfl

theorem scanStep_init_eq (cfg : Config) (ramp : List Resultant)
    (h : flaggedNew cfg ramp (initMask ramp) = []) :
    scanStep cfg ramp (initMask ramp) = initMask ramp := by
  unfold scanStep
  rw [h]
  have : ∀ i ∈ List.range ramp.length,
      ((initMask ramp).getD i false || ([] : List ℕ).contains i) = false := by
    intro i _
    simp [getD_initMask, getElem?_initMask, contains_nil_eq_false]
  rw [List.map_congr_left this]
  rw [List.map_const', List.length_range, initMask]

theorem detectJumps_init_fixed (cfg : Config) (ramp : List Resultant)
    (hne : ramp ≠ [])
    (h : scanStep cfg ramp (initMask ramp) = initMask ramp) :
    detectJumps cfg ramp = initMask ramp := by
  unfold detectJumps
  obtain ⟨k, hk⟩ : ∃ k, ramp.length = k + 1 := by
    cases ramp with
    | nil => exact absurd rfl hne
    | cons a rest => exact ⟨rest.length, rfl⟩
  rw [hk, jumpIterate]
  simp [h]

theorem jumpIterate_spec (cfg : Config) (ramp : List Resultant) :
    ∀ (fuel : ℕ) (mask : List Bool),
      ∃ k ≤ fuel,
        jumpIterate cfg ramp fuel mask = (scanStep cfg ramp)^[k] mask ∧
          (scanStep cfg ramp (jumpIterate cfg ramp fuel mask) =
              jumpIterate cfg ramp fuel mask ∨ k = fuel) := by
  intro fuel
  induction fuel with
  | zero => exact fun mask => ⟨0, le_refl 0, rfl, Or.inr rfl⟩
  | succ n ih =>
    intro mask
    by_cases h : scanStep cfg ramp mask = mask
    · refine ⟨0, Nat.zero_le _, ?_, Or.inl ?_⟩
      · simp [jumpIterate, h]
      · simp [jumpIterate, h]
    · obtain ⟨k, hk, heq, hdisj⟩ := ih (scanStep cfg ramp mask)
      have hstep : jumpIterate cfg ramp (n + 1) mask =
          jumpIterate cfg ramp n (scanStep cfg ramp mask) := by
        rw [jumpIterate]
        simp only [if_neg h]
      refine ⟨k + 1, Nat.succ_le_succ hk, ?_, ?_⟩
      · rw [hstep, heq, Function.iterate_succ_apply]
      · rcases hdisj with h1 | h1
        · exact Or.inl (by rw [hstep]; exact h1)
        · exact Or.inr (by rw [h1])

theorem floorEps_pos (cfg : Config) (v : ℚ) (heps : 0 < cfg.eps) :
    0 < floorEps cfg v :=
  lt_of_lt_of_le heps (le_max_left _ _)

theorem segTriples_cons_cons (cfg : Config) (s : ℚ) (a b : Resultant)
    (rest : List Resultant) :
    segTriples cfg s (a :: b :: rest) =
      (1 / floorEps cfg (resVarRaw cfg s a.time a), a.time, a.counts) ::
      (1 / floorEps cfg (resVarRaw cfg s a.time b), b.time, b.counts) ::
      (rest.zip (prevTimesAux b.time rest)).map
        (fun p => (1 / floorEps cfg (resVarRaw cfg s p.2 p.1), p.1.time, p.1.counts)) := by
  simp [segTriples, prevTimes, prevTimesAux]

theorem segTriples_weight_pos (cfg : Config) (s : ℚ) (seg : List Resultant)
    (heps : 0 < cfg.eps) :
    ∀ p ∈ segTriples cfg s seg, 0 < p.1 := by
  intro p hp
  obtain ⟨q, _, rfl⟩ := List.mem_map.1 hp
  exact one_div_pos.mpr (floorEps_pos cfg _ heps)

theorem segTriples_linear (cfg : Config) (s c0 r : ℚ) (seg : List Resultant)
    (hlin : ∀ x ∈ seg, x.counts = c0 + r * x.time) :
    ∀ p ∈ segTriples cfg s seg, p.2.2 = c0 + r * p.2.1 := by
  intro p hp
  obtain ⟨q, hq, rfl⟩ := List.mem_map.1 hp
  exact hlin q.1 (List.of_mem_zip hq).1

theorem fitSegment_linear (cfg : Config) (c0 r : ℚ) (a b : Resultant)
    (rest : List Resultant) (heps : 0 < cfg.eps)
    (hlin : ∀ x ∈ a :: b :: rest, x.counts = c0 + r * x.time)
    (hab : a.time < b.time) :
    (fitSegment cfg (a :: b :: rest)).valid = true ∧
      (fitSegment cfg (a :: b :: rest)).slope = r ∧
      0 < (fitSegment cfg (a :: b :: rest)).variance := by
  set s0 := provisionalSlope ((a :: b :: rest).map (fun x => (x.time, x.counts))) with hs0
  have hwpos := segTriples_weight_pos cfg s0 (a :: b :: rest) heps
  have hden : 0 < wsumDen (segTriples cfg s0 (a :: b :: rest)) a.time := by
    rw [wsumDen_pos_iff _ _ hwpos]
    refine ⟨(1 / floorEps cfg (resVarRaw cfg s0 a.time b), b.time, b.counts), ?_, ?_⟩
    · rw [segTriples_cons_cons]
      simp
    · exact ne_of_gt hab
  have hnum : wsumNum (segTriples cfg s0 (a :: b :: rest)) a.time a.counts =
      r * wsumDen (segTriples cfg s0 (a :: b :: rest)) a.time := by
    have ha : a.counts = c0 + r * a.time := hlin a (List.mem_cons_self _ _)
    rw [ha]
    exact wsumNum_linear _ _ _ _ (segTriples_linear cfg s0 c0 r _ hlin)
  have hfit : fitSegment cfg (a :: b :: rest) =
      ⟨wsumNum (segTriples cfg s0 (a :: b :: rest)) a.time a.counts /
          wsumDen (segTriples cfg s0 (a :: b :: rest)) a.time,
        1 / wsumDen (segTriples cfg s0 (a :: b :: rest)) a.time, true⟩ := by
    rw [fitSegment]
    simp only [← hs0]
    rw [if_neg (not_le.mpr hden)]
  rw [hfit]
  refine ⟨rfl, ?_, ?_⟩
  · show wsumNum _ _ _ / wsumDen _ _ = r
    rw [hnum]
    exact mul_div_cancel_right₀ r (ne_of_gt hden)
  · exact one_div_pos.mpr hden

theorem fitSegment_cons_cons (cfg : Config) (a b : Resultant)
    (rest : List Resultant) :
    fitSegment cfg (a :: b :: rest) =
      if wsumDen (segTriples cfg
          (provisionalSlope ((a :: b :: rest).map (fun r => (r.time, r.counts))))
          (a :: b :: rest)) a.time ≤ 0 then SegmentFit.invalid
      else
        ⟨wsumNum (segTriples cfg
            (provisionalSlope ((a :: b :: rest).map (fun r => (r.time, r.counts))))
            (a :: b :: rest)) a.time a.counts /
          wsumDen (segTriples cfg
            (provisionalSlope ((a :: b :: rest).map (fun r => (r.time, r.counts))))
            (a :: b :: rest)) a.time,
          1 / wsumDen (segTriples cfg
            (provisionalSlope ((a :: b :: rest).map (fun r => (r.time, r.counts))))
            (a :: b :: rest)) a.time, true⟩ := rfl

theorem wsumDen_const (l : List (ℚ × ℚ × ℚ)) (t0 : ℚ)
    (h : ∀ p ∈ l, p.2.1 = t0) : wsumDen l t0 = 0 := by
  induction l with
  | nil => simp [wsumDen]
  | cons p rest ih =>
    rw [wsumDen_cons, ih (fun q hq => h q (List.mem_cons_of_mem _ hq))]
    have hp : p.2.1 = t0 := h p (List.mem_cons_self _ _)
    rw [hp]
    ring

theorem floorEps_mono (cfg : Config) {u v : ℚ} (h : u ≤ v) :
    floorEps cfg u ≤ floorEps cfg v :=
  max_le_max le_rfl h

theorem resVarRaw_mono (cfg : Config) (rn' s pt : ℚ) (r : Resultant)
    (h0 : 0 ≤ cfg.readNoise) (hle : cfg.readNoise ≤ rn') :
    resVarRaw cfg s pt r ≤ resVarRaw (withNoise cfg rn') s pt r := by
  unfold resVarRaw withNoise
  have hsq : cfg.readNoise ^ 2 ≤ rn' ^ 2 := pow_le_pow_left₀ h0 hle 2
  have hdiv : cfg.readNoise ^ 2 / (r.nreads : ℚ) ≤ rn' ^ 2 / (r.nreads : ℚ) := by
    by_cases hn : (r.nreads : ℚ) = 0
    · rw [hn, div_zero, div_zero]
    · have hpos : 0 < (r.nreads : ℚ) :=
        lt_of_le_of_ne (Nat.cast_nonneg _) (Ne.symm hn)
      exact (div_le_div_iff_of_pos_right hpos).mpr hsq
  simp only
  linarith

theorem segTriples_den_mono (cfg : Config) (rn' s : ℚ) (seg : List Resultant)
    (t0 : ℚ) (heps : 0 < cfg.eps) (h0 : 0 ≤ cfg.readNoise)
    (hle : cfg.readNoise ≤ rn') :
    wsumDen (segTriples (withNoise cfg rn') s seg) t0 ≤
      wsumDen (segTriples cfg s seg) t0 := by
  unfold segTriples
  rw [wsumDen, wsumDen, List.map_map, List.map_map]
  apply List.sum_le_sum
  intro p _
  show (1 / floorEps (withNoise cfg rn') (resVarRaw (withNoise cfg rn') s p.2 p.1)) *
      (p.1.time - t0) ^ 2 ≤
    (1 / floorEps cfg (resVarRaw cfg s p.2 p.1)) * (p.1.time - t0) ^ 2
  apply mul_le_mul_of_nonneg_right _ (sq_nonneg _)
  have hfe : floorEps (withNoise cfg rn') (resVarRaw (withNoise cfg rn') s p.2 p.1) =
      floorEps cfg (resVarRaw (withNoise cfg rn') s p.2 p.1) := rfl
  rw [hfe]
  exact one_div_le_one_div_of_le (floorEps_pos cfg _ heps)
    (floorEps_mono cfg (resVarRaw_mono cfg rn' s p.2 p.1 h0 hle))

theorem segTriples_den_pos_iff (cfg : Config) (s : ℚ) (seg : List Resultant)
    (t0 : ℚ) (heps : 0 < cfg.eps) :
    0 < wsumDen (segTriples cfg s seg) t0 ↔
      ∃ q ∈ seg.zip (prevTimes seg), q.1.time ≠ t0 := by
  rw [wsumDen_pos_iff _ _ (segTriples_weight_pos cfg s seg heps)]
  constructor
  · rintro ⟨p, hp, hne⟩
    obtain ⟨q, hq, rfl⟩ := List.mem_map.1 hp
    exact ⟨q, hq, hne⟩
  · rintro ⟨q, hq, hne⟩
    exact ⟨_, List.mem_map.2 ⟨q, hq, rfl⟩, hne⟩

theorem fitSegment_noise_mono (cfg : Config) (rn' : ℚ) (seg : List Resultant)
    (heps : 0 < cfg.eps) (h0 : 0 ≤ cfg.readNoise) (hle : cfg.readNoise ≤ rn') :
    (fitSegment (withNoise cfg rn') seg).valid = (fitSegment cfg seg).valid ∧
      ((fitSegment cfg seg).valid = true →
        0 < (fitSegment cfg seg).variance ∧
          (fitSegment cfg seg).variance ≤
            (fitSegment (withNoise cfg rn') seg).variance) := by
  have heps' : 0 < (withNoise cfg rn').eps := heps
  match seg with
  | [] => exact ⟨rfl, fun h => absurd h (by simp [fitSegment, SegmentFit.invalid])⟩
  | [x] => exact ⟨rfl, fun h => absurd h (by simp [fitSegment, SegmentFit.invalid])⟩
  | a :: b :: rest =>
    have hmono := segTriples_den_mono cfg rn'
      (provisionalSlope ((a :: b :: rest).map (fun r => (r.time, r.counts))))
      (a :: b :: rest) a.time heps h0 hle
    by_cases hpos : 0 < wsumDen (segTriples cfg
        (provisionalSlope ((a :: b :: rest).map (fun r => (r.time, r.counts))))
        (a :: b :: rest)) a.time
    · have hpos' : 0 < wsumDen (segTriples (withNoise cfg rn')
          (provisionalSlope ((a :: b :: rest).map (fun r => (r.time, r.counts))))
          (a :: b :: rest)) a.time := by
        rw [segTriples_den_pos_iff _ _ _ _ heps']
        rw [segTriples_den_pos_iff _ _ _ _ heps] at hpos
        exact hpos
      rw [fitSegment_cons_cons, fitSegment_cons_cons,
        if_neg (not_le.mpr hpos), if_neg (not_le.mpr hpos')]
      exact ⟨rfl, fun _ =>
        ⟨one_div_pos.mpr hpos, one_div_le_one_div_of_le hpos' hmono⟩⟩
    · have hz : wsumDen (segTriples cfg
          (provisionalSlope ((a :: b :: rest).map (fun r => (r.time, r.counts))))
          (a :: b :: rest)) a.time ≤ 0 := le_of_not_lt hpos
      have hz' : wsumDen (segTriples (withNoise cfg rn')
          (provisionalSlope ((a :: b :: rest).map (fun r => (r.time, r.counts))))
          (a :: b :: rest)) a.time ≤ 0 := by
        apply le_of_not_lt
        rw [segTriples_den_pos_iff _ _ _ _ heps']
        rw [segTriples_den_pos_iff _ _ _ _ heps] at hpos
        exact hpos
      rw [fitSegment_cons_cons, fitSegment_cons_cons, if_pos hz, if_pos hz']
      exact ⟨rfl, fun h => absurd h (by simp [SegmentFit.invalid])⟩

theorem combine_variance_mono (fits fits' : List SegmentFit) (mask : List Bool)
    (h : List.Forall₂ (fun f f' => f'.valid = f.valid ∧
        (f.valid = true → 0 < f.variance ∧ f.variance ≤ f'.variance))
      fits fits') :
    (combineFits fits mask).variance ≤ (combineFits fits' mask).variance := by
  have hf : List.Forall₂ (fun f f' => 0 < f.variance ∧ f.variance ≤ f'.variance)
      (fits.filter (fun f => f.valid)) (fits'.filter (fun f => f.valid)) := by
    induction h with
    | nil => exact List.Forall₂.nil
    | @cons a b l1 l2 hR htail ih =>
      rw [List.filter_cons, List.filter_cons]
      by_cases ha : a.valid = true
      · have hb : b.valid = true := by rw [hR.1, ha]
        rw [if_pos (by simpa using ha), if_pos (by simpa using hb)]
        exact List.Forall₂.cons (hR.2 ha) ih
      · have hb : ¬(b.valid = true) := by rw [hR.1]; exact ha
        rw [if_neg (by simpa using ha), if_neg (by simpa using hb)]
        exact ih
  have key1 : ∀ (l l' : List SegmentFit),
      List.Forall₂ (fun f f' => 0 < f.variance ∧ f.variance ≤ f'.variance) l l' →
        (l'.map (fun f => 1 / f.variance)).sum ≤
          (l.map (fun f => 1 / f.variance)).sum := by
    intro l l' hF
    induction hF with
    | nil => exact le_rfl
    | @cons a b l1 l2 hR _ ih =>
      simp only [List.map_cons, List.sum_cons]
      exact add_le_add (one_div_le_one_div_of_le hR.1 hR.2) ih
  have key2 : ∀ (l l' : List SegmentFit),
      List.Forall₂ (fun f f' => 0 < f.variance ∧ f.variance ≤ f'.variance) l l' →
        0 ≤ (l'.map (fun f => 1 / f.variance)).sum := by
    intro l l' hF
    induction hF with
    | nil => simp
    | @cons a b l1 l2 hR _ ih =>
      simp only [List.map_cons, List.sum_cons]
      have : 0 < 1 / b.variance := one_div_pos.mpr (lt_of_lt_of_le hR.1 hR.2)
      linarith
  have key3 : ∀ (l l' : List SegmentFit),
      List.Forall₂ (fun f f' => 0 < f.variance ∧ f.variance ≤ f'.variance) l l' →
        l' ≠ [] → 0 < (l'.map (fun f => 1 / f.variance)).sum := by
    intro l l' hF
    cases hF with
    | nil => exact fun hc => absurd rfl hc
    | @cons a b l1 l2 hR htail =>
      intro _
      simp only [List.map_cons, List.sum_cons]
      have hb : 0 < 1 / b.variance := one_div_pos.mpr (lt_of_lt_of_le hR.1 hR.2)
      have ht : 0 ≤ (l2.map (fun f => 1 / f.variance)).sum := key2 l1 l2 htail
      linarith
  simp only [combineFits]
  by_cases hnil : fits.filter (fun f => f.valid) = []
  · have hnil' : fits'.filter (fun f => f.valid) = [] := by
      have hlen := hf.length_eq
      rw [hnil] at hlen
      exact List.length_eq_zero.mp hlen.symm
    rw [if_pos (by simpa using hnil), if_pos (by simpa using hnil')]
  · have hnil' : fits'.filter (fun f => f.valid) ≠ [] := by
      intro hc
      apply hnil
      have hlen := hf.length_eq
      rw [hc] at hlen
      exact List.length_eq_zero.mp hlen
    rw [if_neg (by simpa using hnil), if_neg (by simpa using hnil')]
    exact one_div_le_one_div_of_le (key3 _ _ hf hnil') (key1 _ _ hf)

/-! Claim theorems. -/

/-- Claim C1: for every noiseless, jump-free synthetic ramp with a known
constant rate `r` (counts exactly `c0 + r·t`, strictly increasing times,
all resultants valid, at least 2 of them, a nonnegative threshold at
rate `r`, and a positive numeric floor), the pipeline's combined
per-pixel slope equals `r` exactly and the emitted jump mask is empty
(all false). -/
theorem clean_ramp_recovers_rate (cfg : Config) (c0 r : ℚ)
    (ramp : List Resultant)
    (hlen : 2 ≤ ramp.length)
    (hvalid : ∀ x ∈ ramp, x.valid = true)
    (hlin : ∀ x ∈ ramp, x.counts = c0 + r * x.time)
    (hmono : List.Pairwise (fun u v : Resultant => u.time < v.time) ramp)
    (heps : 0 < cfg.eps)
    (hnoiseless : cfg.readNoise = 0)
    (hthr : 0 ≤ thresholdAt cfg r) :
    (fitPixel cfg ramp).slope = r ∧
      (fitPixel cfg ramp).jumpMask = List.replicate ramp.length false := by
  match ramp, hlen with
  | a :: b :: rest, _ =>
  set ramp := a :: b :: rest with hramp
  have hne : ramp ≠ [] := by simp [hramp]
  have hab : a.time < b.time := (List.pairwise_cons.1 hmono).1 b (List.mem_cons_self _ _)
  have hvi : validIndexed ramp = ramp.enum := validIndexed_all ramp hvalid
  have hlen2 : ¬((validIndexed ramp).length < 2) := by
    rw [hvi, List.enum_length, hramp]
    simp
  have hslope0 : provisionalSlope (unflaggedPts ramp (initMask ramp)) = r := by
    rw [unflaggedPts_init ramp hvalid, hramp]
    rw [List.map_cons, List.map_cons]
    apply provisionalSlope_linear c0 r
    · intro s hs
      rcases List.mem_cons.1 hs with rfl | hs'
      · exact hlin a (List.mem_cons_self _ _)
      rcases List.mem_cons.1 hs' with rfl | hs''
      · exact hlin b (List.mem_cons_of_mem _ (List.mem_cons_self _ _))
      · obtain ⟨x, hx, rfl⟩ := List.mem_map.1 hs''
        exact hlin x (List.mem_cons_of_mem _ (List.mem_cons_of_mem _ hx))
    · exact ne_of_gt hab
  have hflag : flaggedNew cfg ramp (initMask ramp) = [] := by
    simp only [flaggedNew, hslope0]
    rw [List.filterMap_eq_nil_iff]
    intro pq hpq
    have hp : pq.1.2 ∈ ramp := by
      have := List.of_mem_zip (a := pq.1) (b := pq.2) (by simpa using hpq)
      exact mem_validIndexed_snd ramp pq.1 this.1
    have hq : pq.2.2 ∈ ramp := by
      have := List.of_mem_zip (a := pq.1) (b := pq.2) (by simpa using hpq)
      exact mem_validIndexed_snd ramp pq.2 (List.mem_of_mem_tail this.2)
    have hstat : boundaryStat cfg r pq.1.2 pq.2.2 = 0 := by
      have h1 : pq.1.2.counts = c0 + r * pq.1.2.time := hlin _ hp
      have h2 : pq.2.2.counts = c0 + r * pq.2.2.time := hlin _ hq
      simp only [boundaryStat]
      rw [h1, h2]
      have hex : c0 + r * pq.2.2.time - (c0 + r * pq.1.2.time) -
          r * (pq.2.2.time - pq.1.2.time) = 0 := by ring
      rw [hex]
      simp
    have hdec : jumpDecision cfg r pq.1.2 pq.2.2 = false := by
      rw [jumpDecision]
      rw [hstat]
      simp only [decide_eq_false_iff_not]
      exact not_lt.mpr hthr
    rw [hdec]
    simp
  have hmask : detectJumps cfg ramp = initMask ramp :=
    detectJumps_init_fixed cfg ramp hne (scanStep_init_eq cfg ramp hflag)
  have hseg : segmentsOf ramp (initMask ramp) = [ramp] :=
    segmentsOf_initMask ramp hvalid hne
  have hfit := fitSegment_linear cfg c0 r a b rest heps hlin hab
  have hpix : fitPixel cfg ramp =
      combineFits [fitSegment cfg ramp] (initMask ramp) := by
    simp only [fitPixel]
    rw [if_neg hlen2, hmask, hseg]
    simp
  have hvarne : (fitSegment cfg ramp).variance ≠ 0 := ne_of_gt hfit.2.2
  have hcomb : combineFits [fitSegment cfg ramp] (initMask ramp) =
      ⟨(fitSegment cfg ramp).slope / (fitSegment cfg ramp).variance /
          (1 / (fitSegment cfg ramp).variance),
        1 / (1 / (fitSegment cfg ramp).variance), true, initMask ramp, 0⟩ := by
    simp only [combineFits]
    rw [List.filter_cons_of_pos (by simpa using hfit.1)]
    simp
  rw [hpix, hcomb]
  constructor
  · show (fitSegment cfg ramp).slope / (fitSegment cfg ramp).variance /
        (1 / (fitSegment cfg ramp).variance) = r
    rw [hfit.2.1]
    field_simp
  · show initMask ramp = List.replicate ramp.length false
    rfl

/-- Claim C1 witness: the clean rate-3 ramp `rampLin` under the noiseless
configuration `cfgZero`. -/
theorem clean_ramp_recovers_rate_witness :
    2 ≤ rampLin.length ∧
      (fitPixel cfgZero rampLin).slope = 3 ∧
        (fitPixel cfgZero rampLin).jumpMask = List.replicate rampLin.length false :=
  ⟨by decide,
    clean_ramp_recovers_rate cfgZero 2 3 rampLin (by decide) (by decide)
      (by decide) (by decide) (by decide) (by decide) (by decide)⟩

/-- Claim C2: per-pixel processing is noninterfering: for two input
arrays of the same shape that differ only at pixel `p`, every output at
every pixel `i ≠ p` is identical, and the computation is total — every
pixel yields a result (no per-pixel condition aborts the array-wide
map). -/
theorem pixel_noninterference (cfg : Config) (ps qs : List (List Resultant))
    (p : ℕ) (hlen : ps.length = qs.length)
    (hdiff : ∀ j, j ≠ p → ps[j]? = qs[j]?) :
    (∀ i, i ≠ p → (fitArray cfg ps)[i]? = (fitArray cfg qs)[i]?) ∧
      (fitArray cfg ps).length = ps.length ∧
      (fitArray cfg qs).length = qs.length := by
  refine ⟨?_, ?_, ?_⟩
  · intro i hi
    simp only [fitArray, List.getElem?_map]
    rw [hdiff i hi]
  · exact List.length_map _ _
  · exact List.length_map _ _

/-- Claim C2 witness: two concrete two-pixel arrays differing only at
pixel 1 produce the same result at pixel 0. -/
theorem pixel_noninterference_witness :
    pixelsP.length = pixelsQ.length ∧
      (fitArray cfgLo pixelsP)[0]? = (fitArray cfgLo pixelsQ)[0]? :=
  ⟨by decide,
    (pixel_noninterference cfgLo pixelsP pixelsQ 1 (by decide)
        (fun j hj => by
          match j with
          | 0 => rfl
          | 1 => exact absurd rfl hj
          | n + 2 => rfl)).1
      0 (by decide)⟩

/-- Claim C3: a ramp with fewer than 2 valid resultants yields an
invalid `PixelResult` (sentinel slope and variance 0) with the
`InsufficientData` quality bit (bit 1) set and an unflagged jump mask,
regardless of all other inputs: no fit is attempted. -/
theorem insufficient_data_invalid (cfg : Config) (ramp : List Resultant)
    (h : (validIndexed ramp).length < 2) :
    (fitPixel cfg ramp).valid = false ∧
      (fitPixel cfg ramp).quality.testBit 1 = true ∧
      (fitPixel cfg ramp).slope = 0 ∧
      (fitPixel cfg ramp).variance = 0 ∧
      (fitPixel cfg ramp).jumpMask = List.replicate ramp.length false := by
  have hpix : fitPixel cfg ramp =
      { slope := 0, variance := 0, valid := false,
        jumpMask := initMask ramp,
        quality := qInsufficient +
          (if (validIndexed ramp).length = 0 then qSaturated else 0) } := by
    simp only [fitPixel]
    rw [if_pos h]
  rw [hpix]
  refine ⟨rfl, ?_, rfl, rfl, rfl⟩
  by_cases h0 : (validIndexed ramp).length = 0
  · rw [if_pos h0]
    show Nat.testBit (qInsufficient + qSaturated) 1 = true
    decide
  · rw [if_neg h0]
    show Nat.testBit (qInsufficient + 0) 1 = true
    decide

/-- Claim C3 witness: the ramp `rampOne` with exactly one valid
resultant. -/
theorem insufficient_data_invalid_witness :
    (validIndexed rampOne).length < 2 ∧
      (fitPixel cfgLo rampOne).valid = false ∧
      (fitPixel cfgLo rampOne).quality.testBit 1 = true :=
  ⟨by decide,
    (insufficient_data_invalid cfgLo rampOne (by decide)).1,
    (insufficient_data_invalid cfgLo rampOne (by decide)).2.1⟩

/-- Claim C4: the jump-detection re-scan loop is total and its result is
reached after some number `k` of scans bounded by the iteration cap (the
ramp length); it stops either at a fixed point of the scan (no new
flags) or because the cap was reached, in which case the last computed
mask is the final answer. -/
theorem jump_scan_terminates (cfg : Config) (ramp : List Resultant) :
    ∃ k ≤ ramp.length,
      detectJumps cfg ramp = (scanStep cfg ramp)^[k] (initMask ramp) ∧
        (scanStep cfg ramp (detectJumps cfg ramp) = detectJumps cfg ramp ∨
          k = ramp.length) :=
  jumpIterate_spec cfg ramp ramp.length (initMask ramp)

/-- Claim C8: the jump-detection threshold comparison is strict: a
boundary is flagged exactly when its statistic strictly exceeds the
threshold, and a boundary whose statistic equals the threshold is not
flagged. -/
theorem jump_threshold_strict (cfg : Config) (slope : ℚ) (p q : Resultant) :
    (jumpDecision cfg slope p q = true ↔
        thresholdAt cfg slope < boundaryStat cfg slope p q) ∧
      (boundaryStat cfg slope p q = thresholdAt cfg slope →
        jumpDecision cfg slope p q = false) := by
  constructor
  · simp [jumpDecision]
  · intro htie
    simp only [jumpDecision, htie]
    simp

/-- Claim C8 witness: a concrete tie — the statistic equals the
threshold exactly and the boundary is not flagged. -/
theorem jump_threshold_strict_witness :
    boundaryStat cfgTie 0 (mkRes 0 0) (mkRes 1 1) = thresholdAt cfgTie 0 ∧
      jumpDecision cfgTie 0 (mkRes 0 0) (mkRes 1 1) = false :=
  ⟨by decide,
    (jump_threshold_strict cfgTie 0 (mkRes 0 0) (mkRes 1 1)).2 (by decide)⟩

/-- Claim C10: the build configuration defines exactly three extension
modules — `stcal.ramp_fitting.ols_cas22._ramp`, `._jump` and `._fit` —
and each is compiled as C++ from a single `.pyx` source whose path
mirrors the dotted module name under `src/`. -/
theorem build_config_extensions :
    extensions.length = 3 ∧
      extensions.map (fun e => e.name) =
        ["stcal.ramp_fitting.ols_cas22._ramp",
          "stcal.ramp_fitting.ols_cas22._jump",
          "stcal.ramp_fitting.ols_cas22._fit"] ∧
      ∀ e ∈ extensions,
        e.language = "c++" ∧ e.sources = [moduleSourcePath e.name] := by
  refine ⟨rfl, rfl, ?_⟩
  decide

/-- Claim C5: inverse-variance combination is permutation-invariant:
combining any permutation of a list of segment fits yields exactly the
same combined slope and combined variance. -/
theorem combine_perm_invariant (fits fits' : List SegmentFit)
    (mask : List Bool) (hperm : fits.Perm fits') :
    (combineFits fits mask).slope = (combineFits fits' mask).slope ∧
      (combineFits fits mask).variance = (combineFits fits' mask).variance := by
  have hv : (fits.filter (fun f => f.valid)).Perm
      (fits'.filter (fun f => f.valid)) := hperm.filter _
  have hsum1 : ((fits.filter (fun f => f.valid)).map (fun f => 1 / f.variance)).sum =
      ((fits'.filter (fun f => f.valid)).map (fun f => 1 / f.variance)).sum :=
    (hv.map _).sum_eq
  have hsum2 : ((fits.filter (fun f => f.valid)).map (fun f => f.slope / f.variance)).sum =
      ((fits'.filter (fun f => f.valid)).map (fun f => f.slope / f.variance)).sum :=
    (hv.map _).sum_eq
  simp only [combineFits]
  by_cases h : fits.filter (fun f => f.valid) = []
  · have h' : fits'.filter (fun f => f.valid) = [] :=
      List.length_eq_zero.mp (by rw [← hv.length_eq, h]; rfl)
    rw [h, h']
    exact ⟨rfl, rfl⟩
  · have h' : fits'.filter (fun f => f.valid) ≠ [] := by
      intro hc
      exact h (List.length_eq_zero.mp (by rw [hv.length_eq, hc]; rfl))
    rw [if_neg (by simpa using h), if_neg (by simpa using h')]
    rw [hsum1, hsum2]
    exact ⟨rfl, rfl⟩

/-- Claim C5 witness: swapping two concrete fits leaves the combined
slope and variance unchanged. -/
theorem combine_perm_invariant_witness :
    [fitP, fitQ].Perm [fitQ, fitP] ∧
      (combineFits [fitP, fitQ] []).slope = (combineFits [fitQ, fitP] []).slope ∧
      (combineFits [fitP, fitQ] []).variance = (combineFits [fitQ, fitP] []).variance :=
  ⟨by decide, combine_perm_invariant [fitP, fitQ] [fitQ, fitP] [] (by decide)⟩

/-- Claim C7: the segment fitter's numeric guards: the floored variance
is always positive (so no division by a non-positive variance happens);
a non-positive computed variance is floored to epsilon exactly; a valid
fit always carries a positive variance; and a segment whose resultants
all share one identical time yields an invalid fit (no NaN-like
propagation — invalidity is explicit). -/
theorem fitter_numeric_guards (cfg : Config) (v : ℚ) (seg : List Resultant)
    (t : ℚ) (heps : 0 < cfg.eps) :
    0 < floorEps cfg v ∧
      (v ≤ 0 → floorEps cfg v = cfg.eps) ∧
      ((fitSegment cfg seg).valid = true → 0 < (fitSegment cfg seg).variance) ∧
      ((∀ x ∈ seg, x.time = t) → (fitSegment cfg seg).valid = false) := by
  refine ⟨floorEps_pos cfg v heps, ?_, ?_, ?_⟩
  · intro hv
    rw [floorEps, max_eq_left (le_trans hv heps.le)]
  · match seg with
    | [] => intro h; exact absurd h (by simp [fitSegment, SegmentFit.invalid])
    | [x] => intro h; exact absurd h (by simp [fitSegment, SegmentFit.invalid])
    | a :: b :: rest =>
      intro hvalid
      rw [fitSegment_cons_cons] at hvalid ⊢
      by_cases hden : wsumDen (segTriples cfg
          (provisionalSlope ((a :: b :: rest).map (fun r => (r.time, r.counts))))
          (a :: b :: rest)) a.time ≤ 0
      · rw [if_pos hden] at hvalid
        exact absurd hvalid (by simp [SegmentFit.invalid])
      · rw [if_neg hden]
        exact one_div_pos.mpr (not_le.mp hden)
  · match seg with
    | [] => intro _; simp [fitSegment, SegmentFit.invalid]
    | [x] => intro _; simp [fitSegment, SegmentFit.invalid]
    | a :: b :: rest =>
      intro hconst
      rw [fitSegment_cons_cons]
      have hat : a.time = t := hconst a (List.mem_cons_self _ _)
      have hden : wsumDen (segTriples cfg
          (provisionalSlope ((a :: b :: rest).map (fun r => (r.time, r.counts))))
          (a :: b :: rest)) a.time = 0 := by
        apply wsumDen_const
        intro p hp
        obtain ⟨q, hq, rfl⟩ := List.mem_map.1 hp
        have : q.1 ∈ a :: b :: rest := (List.of_mem_zip hq).1
        rw [hconst q.1 this, hat]
      rw [if_pos (le_of_eq hden)]
      rfl

/-- Claim C7 witness: under `cfgLo` (eps 1/100), the value −5 is floored
to eps, and the equal-time segment `segDegen` yields an invalid fit. -/
theorem fitter_numeric_guards_witness :
    0 < cfgLo.eps ∧ floorEps cfgLo (-5) = cfgLo.eps ∧
      (fitSegment cfgLo segDegen).valid = false :=
  ⟨by decide,
    (fitter_numeric_guards cfgLo (-5) segDegen 4 (by decide)).2.1 (by decide),
    (fitter_numeric_guards cfgLo (-5) segDegen 4 (by decide)).2.2.2 (by decide)⟩

/-- Claim C9: the ramp combiner copies the jump mask verbatim into the
result, its slope and variance do not depend on the mask at all (it is
pure aggregation of the segment fits), and the pipeline's final jump
mask is exactly the jump detector's mask. -/
theorem combiner_copies_mask (fits : List SegmentFit) (m1 m2 : List Bool)
    (cfg : Config) (ramp : List Resultant)
    (h : ¬((validIndexed ramp).length < 2)) :
    (combineFits fits m1).jumpMask = m1 ∧
      (combineFits fits m1).slope = (combineFits fits m2).slope ∧
      (combineFits fits m1).variance = (combineFits fits m2).variance ∧
      (fitPixel cfg ramp).jumpMask = detectJumps cfg ramp := by
  have hmaskcopy : ∀ (fs : List SegmentFit) (m : List Bool),
      (combineFits fs m).jumpMask = m := by
    intro fs m
    simp only [combineFits]
    by_cases hc : fs.filter (fun f => f.valid) = []
    · rw [if_pos (by simpa using hc)]
    · rw [if_neg (by simpa using hc)]
  refine ⟨hmaskcopy fits m1, ?_, ?_, ?_⟩
  · simp only [combineFits]
    by_cases hc : fits.filter (fun f => f.valid) = []
    · rw [if_pos (by simpa using hc), if_pos (by simpa using hc)]
    · rw [if_neg (by simpa using hc), if_neg (by simpa using hc)]
  · simp only [combineFits]
    by_cases hc : fits.filter (fun f => f.valid) = []
    · rw [if_pos (by simpa using hc), if_pos (by simpa using hc)]
    · rw [if_neg (by simpa using hc), if_neg (by simpa using hc)]
  · simp only [fitPixel]
    rw [if_neg h]
    exact hmaskcopy _ _

/-- Claim C9 witness: a concrete mask is copied verbatim and the
pipeline's mask at `rampCE` equals the detector's. -/
theorem combiner_copies_mask_witness :
    ¬((validIndexed rampCE).length < 2) ∧
      (combineFits [fitP] [true]).jumpMask = [true] ∧
      (fitPixel cfgLo rampCE).jumpMask = detectJumps cfgLo rampCE :=
  ⟨by decide,
    (combiner_copies_mask [fitP] [true] [false] cfgLo rampCE (by decide)).1,
    (combiner_copies_mask [fitP] [true] [false] cfgLo rampCE (by decide)).2.2.2⟩

/-- Claim C6 counterexample: raising the read noise from 1 (`cfgLo`) to
2 (`cfgHi`) with every other configuration field and the whole input
ramp `rampCE` unchanged strictly DECREASES the reported combined slope
variance (from 1 to 5/7): the higher noise hides the jump between
indices 1 and 2, the two segments merge into one long segment, and the
merged fit is reported as tighter.  This refutes the claim that the
reported variance is monotone in read noise for every input. -/
theorem noise_monotonicity_counterexample :
    cfgLo.readNoise < cfgHi.readNoise ∧
      cfgHi = withNoise cfgLo 2 ∧
      (fitPixel cfgHi rampCE).variance < (fitPixel cfgLo rampCE).variance := by
  refine ⟨by decide, by decide, by decide⟩

/-- Claim C6 (amended): with the segmentation (jump mask) held fixed —
that is, at the segment-fitting and combination stage — increasing the
per-resultant read noise never decreases the reported combined slope
variance.  (Through jump re-detection, increased noise can merge
segments and strictly decrease the reported variance, as the
counterexample shows.) -/
theorem noise_monotonicity_fixed_segments (cfg : Config) (rn' : ℚ)
    (segs : List (List Resultant)) (mask : List Bool)
    (heps : 0 < cfg.eps) (h0 : 0 ≤ cfg.readNoise)
    (hle : cfg.readNoise ≤ rn') :
    (combineFits (segs.map (fitSegment cfg)) mask).variance ≤
      (combineFits (segs.map (fitSegment (withNoise cfg rn'))) mask).variance := by
  apply combine_variance_mono
  induction segs with
  | nil => exact List.Forall₂.nil
  | cons s rest ih =>
    exact List.Forall₂.cons (fitSegment_noise_mono cfg rn' s heps h0 hle) ih

/-- Claim C6 (amended) witness: the fixed two-segment split of `rampCE`
under read noise 1 versus read noise 2. -/
theorem noise_monotonicity_fixed_segments_witness :
    0 < cfgLo.eps ∧ 0 ≤ cfgLo.readNoise ∧ cfgLo.readNoise ≤ 2 ∧
      (combineFits (segmentsOf rampCE (detectJumps cfgLo rampCE) |>.map
            (fitSegment cfgLo)) []).variance ≤
        (combineFits (segmentsOf rampCE (detectJumps cfgLo rampCE) |>.map
            (fitSegment (withNoise cfgLo 2))) []).variance :=
  ⟨by decide, by decide, by decide,
    noise_monotonicity_fixed_segments cfgLo 2
      (segmentsOf rampCE (detectJumps cfgLo rampCE)) [] (by decide) (by decide)
      (by decide)⟩

end Stcal
